import Mathlib

/-!
Shallow embedding of the `automerge-demo` synchronization protocol
(`src/demos/automerge-demo/src/index.ts`): the ordering `Server` (versioned
append-only log with idempotent, version-gated `commit` and `fetchSince`),
the `Client` sync cycle (`syncNow`), local edit / `undo`, and the
strict-first-wins reconciliation over the document's JSON view
(`getByPath` / `setByPath`).

The Automerge document engine itself is an external dependency of the
repository; protocol-level definitions are parameterized over an abstract
engine exposing the operations the client consumes (`applyChanges`,
`getChanges`, `save`, `load`), while the document-content view used by the
strict-mode revert is modelled concretely by `Val` below.
-/

namespace CrdtDemo

/-- A committed log entry, `type Op` in the source.  `Change` abstracts the
serialized Automerge change blobs (`Uint8Array`). -/
structure Op (Change : Type) where
  version : Nat
  opId : String
  actorId : String
  changes : List Change
  touchedPaths : List String
  deriving DecidableEq, Repr

/-- Server state: `version`, `ops` (append-only log) and the idempotency set
`committedOpIds` (a JS `Set`, modelled as its insertion-ordered list). -/
structure ServerState (Change : Type) where
  version : Nat
  ops : List (Op Change)
  committedOpIds : List String
  deriving DecidableEq, Repr

/-- The argument record of `Server.commit`. -/
structure CommitReq (Change : Type) where
  expectedVersion : Nat
  opId : String
  actorId : String
  changes : List Change
  touchedPaths : List String
  deriving DecidableEq, Repr

/-- Outcome of a `commit` call: a returned version, or the thrown
`STALE_VERSION` error carrying the server's current version. -/
inductive CommitOut where
  | ok (version : Nat)
  | stale (currentVersion : Nat)
  deriving DecidableEq, Repr

variable {Change : Type}

/-- `Server.fetchSince(v)`: `this.ops.filter(op => op.version > v)`.
The state component of the result records that the call does not mutate the
server. -/
def ServerState.fetchSince (s : ServerState Change) (v : Nat) :
    List (Op Change) × ServerState Change :=
  (s.ops.filter (fun op => v < op.version), s)

/-- `Server.commit(req)`.  The three branches of the source, in order:
idempotent replay (`committedOpIds.has`, then `ops.find(...)` and the
unchecked dereference `op!.version`, modelled by `none` when `find` misses),
the stale-version rejection, and the atomic check-and-append.  The result
pairs the outcome with the post-call server state; `none` models the
`TypeError` the unchecked dereference would throw. -/
def ServerState.commit (s : ServerState Change) (req : CommitReq Change) :
    Option (CommitOut × ServerState Change) :=
  if s.committedOpIds.contains req.opId then
    match s.ops.find? (fun o => o.opId == req.opId) with
    | some op => some (.ok op.version, s)
    | none => none
  else if req.expectedVersion ≠ s.version then
    some (.stale s.version, s)
  else
    let newVersion := s.version + 1
    let op : Op Change :=
      { version := newVersion, opId := req.opId, actorId := req.actorId,
        changes := req.changes, touchedPaths := req.touchedPaths }
    some (.ok newVersion,
      { version := newVersion, ops := s.ops ++ [op],
        committedOpIds := s.committedOpIds ++ [req.opId] })

/-- The server's initial state: `version = 0`, empty log, no seen keys. -/
def initServer : ServerState Change :=
  { version := 0, ops := [], committedOpIds := [] }

/-- Server states reachable from the initial state by any sequence of
`fetchSince` and `commit` calls (`fetchSince` returns the state unchanged,
`commit` may replace it). -/
inductive Reachable : ServerState Change → Prop where
  | init : Reachable initServer
  | fetch (s : ServerState Change) (v : Nat) :
      Reachable s → Reachable (s.fetchSince v).2
  | commit (s : ServerState Change) (req : CommitReq Change)
      (out : CommitOut) (s' : ServerState Change) :
      Reachable s → s.commit req = some (out, s') → Reachable s'

/-- C1 — A commit whose idempotency key is fresh and whose `expectedVersion`
disagrees with the server's `version` throws `STALE_VERSION` carrying the
current version, and leaves the server state unchanged. -/
theorem commit_stale_rejected (s : ServerState Change) (req : CommitReq Change)
    (hkey : ¬ s.committedOpIds.contains req.opId)
    (hver : req.expectedVersion ≠ s.version) :
    s.commit req = some (.stale s.version, s) := by
  have hkey' : req.opId ∉ s.committedOpIds := by simpa using hkey
  simp [ServerState.commit, hkey', hver]

/-- C1 witness: a concrete fresh-key, stale-version commit against a server
at version 1 fails with `STALE_VERSION 1` and mutates nothing. -/
theorem commit_stale_rejected_witness :
    let s : ServerState Unit :=
      { version := 1,
        ops := [{ version := 1, opId := "k1", actorId := "Alice",
                  changes := [()], touchedPaths := ["nodes.nodeA.title"] }],
        committedOpIds := ["k1"] }
    let req : CommitReq Unit :=
      { expectedVersion := 0, opId := "k2", actorId := "Bob",
        changes := [()], touchedPaths := ["nodes.nodeB.color"] }
    s.commit req = some (.stale 1, s) :=
  commit_stale_rejected _ _ (by decide) (by decide)

/-- The server's internal invariant: `currentVersion` equals the log length,
entry versions are `1, 2, ...` in log order, and the idempotency set holds
exactly the `opId`s of logged entries. -/
def Inv (s : ServerState Change) : Prop :=
  s.version = s.ops.length ∧
  s.ops.map Op.version = List.range' 1 s.ops.length ∧
  ∀ k, k ∈ s.committedOpIds ↔ ∃ op ∈ s.ops, op.opId = k

theorem inv_initServer : Inv (initServer : ServerState Change) := by
  simp [Inv, initServer]

theorem inv_commit {s : ServerState Change} {req : CommitReq Change}
    {out : CommitOut} {s' : ServerState Change}
    (hinv : Inv s) (h : s.commit req = some (out, s')) : Inv s' := by
  unfold ServerState.commit at h
  split at h
  · split at h
    · simp only [Option.some.injEq, Prod.mk.injEq] at h
      exact h.2 ▸ hinv
    · exact absurd h (by simp)
  · split at h
    · simp only [Option.some.injEq, Prod.mk.injEq] at h
      exact h.2 ▸ hinv
    · simp only [Option.some.injEq, Prod.mk.injEq] at h
      obtain ⟨hinv1, hinv2, hinv3⟩ := hinv
      obtain ⟨rfl, rfl⟩ := h
      refine ⟨by simp [hinv1], ?_, ?_⟩
      · simp only [List.map_append, List.length_append, List.map_cons,
          List.map_nil, List.length_cons, List.length_nil]
        rw [List.range'_concat, hinv2, hinv1]
        simp [Nat.add_comm]
      · intro k
        simp only [List.mem_append, List.mem_singleton, hinv3]
        constructor
        · rintro (⟨op, hop, rfl⟩ | rfl)
          · exact ⟨op, Or.inl hop, rfl⟩
          · exact ⟨_, Or.inr rfl, rfl⟩
        · rintro ⟨op, hop | hop, rfl⟩
          · exact Or.inl ⟨op, hop, rfl⟩
          · subst hop; exact Or.inr rfl

theorem inv_of_reachable {s : ServerState Change} (h : Reachable s) : Inv s := by
  induction h with
  | init => exact inv_initServer
  | fetch s v _ ih => exact ih
  | commit s req out s' _ hc ih => exact inv_commit ih hc

theorem inv_version_at {s : ServerState Change} (hinv : Inv s)
    (i : Nat) (hi : i < s.ops.length) : (s.ops.get ⟨i, hi⟩).version = i + 1 := by
  have hmap := hinv.2.1
  have hlen : i < (s.ops.map Op.version).length := by simpa using hi
  have h2 := List.get_of_eq hmap ⟨i, hlen⟩
  simp only [List.get_eq_getElem, List.getElem_map, List.getElem_range'] at h2
  simpa [Nat.add_comm] using h2

/-- C4 — In every reachable server state the log invariant holds:
`log[i].version = i + 1` for every index, `currentVersion = log.length`, and
every fresh-key commit at the matching expected version appends exactly one
entry and returns `currentVersion + 1` (so versions returned by successful
appending commits are `1, 2, 3, ...`). -/
theorem server_log_invariant (s : ServerState Change) (h : Reachable s) :
    s.version = s.ops.length ∧
    (∀ i (hi : i < s.ops.length), (s.ops.get ⟨i, hi⟩).version = i + 1) ∧
    (∀ req : CommitReq Change, ¬ s.committedOpIds.contains req.opId →
      req.expectedVersion = s.version →
      s.commit req = some (.ok (s.version + 1),
        { version := s.version + 1,
          ops := s.ops ++
            [{ version := s.version + 1, opId := req.opId,
               actorId := req.actorId, changes := req.changes,
               touchedPaths := req.touchedPaths }],
          committedOpIds := s.committedOpIds ++ [req.opId] })) := by
  have hinv := inv_of_reachable h
  refine ⟨hinv.1, inv_version_at hinv, ?_⟩
  intro req hkey hver
  have hkey' : req.opId ∉ s.committedOpIds := by simpa using hkey
  simp [ServerState.commit, hkey', hver]

/-- C4 witness: from the initial state, a commit with expected version 0
appends the first entry and returns version 1. -/
theorem server_log_invariant_witness :
    (initServer : ServerState Unit).commit
      { expectedVersion := 0, opId := "k1", actorId := "Alice",
        changes := [()], touchedPaths := ["nodes.nodeA.title"] } =
      some (.ok 1,
        { version := 1,
          ops := [{ version := 1, opId := "k1", actorId := "Alice",
                    changes := [()], touchedPaths := ["nodes.nodeA.title"] }],
          committedOpIds := ["k1"] }) := by
  have := (server_log_invariant (initServer : ServerState Unit) Reachable.init).2.2
    { expectedVersion := 0, opId := "k1", actorId := "Alice",
      changes := [()], touchedPaths := ["nodes.nodeA.title"] }
    (by decide) (by decide)
  simpa [initServer] using this

/-- C10 — In every reachable server state the idempotency set holds exactly
the `opId`s of the logged entries, so the deduplication branch's lookup
`ops.find(o => o.opId === req.opId)` always finds an entry and the unchecked
dereference `op!` never fails (`commit` never returns `none`). -/
theorem commit_lookup_safe (s : ServerState Change) (h : Reachable s) :
    (∀ k, k ∈ s.committedOpIds ↔ ∃ op ∈ s.ops, op.opId = k) ∧
    ∀ req : CommitReq Change, s.commit req ≠ none := by
  have hinv := inv_of_reachable h
  refine ⟨hinv.2.2, ?_⟩
  intro req
  unfold ServerState.commit
  split
  · rename_i hc
    have hmem : req.opId ∈ s.committedOpIds := by simpa using hc
    obtain ⟨op, hop, hopid⟩ := (hinv.2.2 req.opId).1 hmem
    have hsome : (s.ops.find? (fun o => o.opId == req.opId)).isSome := by
      rw [List.find?_isSome]
      exact ⟨op, hop, by simp [hopid]⟩
    cases hfind : s.ops.find? (fun o => o.opId == req.opId) with
    | none => rw [hfind] at hsome; simp at hsome
    | some op2 => simp [hfind]
  · split <;> simp

/-- C10 witness: in the reachable one-entry state, a retried commit with the
already-seen key `k1` (and an arbitrary stale expected version) does not
crash on the dereference. -/
theorem commit_lookup_safe_witness :
    let op1 : Op Unit :=
      { version := 1, opId := "k1", actorId := "Alice",
        changes := [()], touchedPaths := ["nodes.nodeA.title"] }
    let s1 : ServerState Unit :=
      { version := 1, ops := [op1], committedOpIds := ["k1"] }
    s1.commit
      { expectedVersion := 7, opId := "k1", actorId := "Alice",
        changes := [()], touchedPaths := ["nodes.nodeA.title"] } ≠ none :=
  (commit_lookup_safe _
    (Reachable.commit initServer
      { expectedVersion := 0, opId := "k1", actorId := "Alice",
        changes := [()], touchedPaths := ["nodes.nodeA.title"] }
      (.ok 1) _ Reachable.init (by decide))).2 _

/-- C3 — Exactly-once semantics: if a commit succeeds with version `v`,
re-committing any request with the same idempotency key (whatever its
`expectedVersion`) returns the same version `v` and leaves the server
unchanged, so the log grows by at most one entry across both calls. -/
theorem commit_idempotent_replay (s : ServerState Change)
    (r1 r2 : CommitReq Change) (h : Reachable s) (hid : r2.opId = r1.opId)
    (v : Nat) (s1 : ServerState Change)
    (h1 : s.commit r1 = some (.ok v, s1)) :
    s1.commit r2 = some (.ok v, s1) ∧ s1.ops.length ≤ s.ops.length + 1 := by
  have hinv := inv_of_reachable h
  unfold ServerState.commit at h1
  split at h1
  · rename_i hc
    split at h1
    · rename_i op hfind
      simp only [Option.some.injEq, Prod.mk.injEq, CommitOut.ok.injEq] at h1
      obtain ⟨rfl, rfl⟩ := h1
      constructor
      · unfold ServerState.commit
        rw [if_pos (by simp only [hid]; exact hc)]
        have hfind2 : s.ops.find? (fun o => o.opId == r2.opId) = some op := by
          simpa [hid] using hfind
        rw [hfind2]
      · exact Nat.le_succ_of_le (Nat.le_refl _)
    · exact absurd h1 (by simp)
  · split at h1
    · exact absurd h1 (by simp)
    · rename_i hc hv
      simp only [Option.some.injEq, Prod.mk.injEq, CommitOut.ok.injEq] at h1
      obtain ⟨rfl, rfl⟩ := h1
      have hc' : r1.opId ∉ s.committedOpIds := by simpa using hc
      constructor
      · unfold ServerState.commit
        rw [if_pos (by simp [hid])]
        set newOp : Op Change :=
          { version := s.version + 1, opId := r1.opId, actorId := r1.actorId,
            changes := r1.changes, touchedPaths := r1.touchedPaths } with hnew
        have hsome :
            ((s.ops ++ [newOp]).find? (fun o => o.opId == r2.opId)).isSome := by
          rw [List.find?_isSome]
          refine ⟨newOp, by simp, ?_⟩
          simp [hnew, hid]
        cases hfind : (s.ops ++ [newOp]).find? (fun o => o.opId == r2.opId) with
        | none => rw [hfind] at hsome; simp at hsome
        | some op2 =>
          have hp : op2.opId = r2.opId := by
            have := List.find?_some hfind
            simpa using this
          have hmem := List.mem_of_find?_eq_some hfind
          simp only [List.mem_append, List.mem_singleton] at hmem
          rcases hmem with hmem | rfl
          · exfalso
            exact hc' ((hinv.2.2 r1.opId).2 ⟨op2, hmem, by rw [hp, hid]⟩)
          · rfl
      · simp

/-- C3 witness: committing key `k1` against the initial server returns
version 1; a retry of `k1` with a different (now stale) expected version
returns version 1 again and appends nothing. -/
theorem commit_idempotent_replay_witness :
    let s1 : ServerState Unit :=
      { version := 1,
        ops := [{ version := 1, opId := "k1", actorId := "Alice",
                  changes := [()], touchedPaths := ["nodes.nodeA.title"] }],
        committedOpIds := ["k1"] }
    s1.commit
      { expectedVersion := 7, opId := "k1", actorId := "Alice",
        changes := [()], touchedPaths := ["nodes.nodeA.title"] } =
        some (.ok 1, s1) ∧
      s1.ops.length ≤ (initServer : ServerState Unit).ops.length + 1 :=
  commit_idempotent_replay initServer
    { expectedVersion := 0, opId := "k1", actorId := "Alice",
      changes := [()], touchedPaths := ["nodes.nodeA.title"] }
    { expectedVersion := 7, opId := "k1", actorId := "Alice",
      changes := [()], touchedPaths := ["nodes.nodeA.title"] }
    Reachable.init (by decide) 1 _ (by decide)

/-- C9 — `fetchSince v` is a pure read: it leaves the server state unchanged
and returns exactly the log entries with `version > v`, in ascending version
order (in any reachable state). -/
theorem fetchSince_spec (s : ServerState Change) (v : Nat) (h : Reachable s) :
    (s.fetchSince v).2 = s ∧
    (∀ op : Op Change, op ∈ (s.fetchSince v).1 ↔ op ∈ s.ops ∧ v < op.version) ∧
    ((s.fetchSince v).1.map Op.version).Pairwise (· < ·) := by
  have hinv := inv_of_reachable h
  refine ⟨rfl, ?_, ?_⟩
  · intro op
    simp [ServerState.fetchSince, List.mem_filter]
  · have hops : (s.ops.map Op.version).Pairwise (· < ·) := by
      rw [hinv.2.1]
      exact List.pairwise_lt_range' 1 s.ops.length
    have hops' : s.ops.Pairwise (fun a b => a.version < b.version) :=
      (List.pairwise_map).1 hops
    exact (List.pairwise_map).2 (hops'.filter _)

/-- C9 witness: fetching since version 1 from a reachable two-entry server
returns exactly the second entry, ascending, without touching the state. -/
theorem fetchSince_spec_witness :
    let op1 : Op Unit :=
      { version := 1, opId := "k1", actorId := "Alice",
        changes := [()], touchedPaths := ["nodes.nodeA.title"] }
    let op2 : Op Unit :=
      { version := 2, opId := "k2", actorId := "Bob",
        changes := [()], touchedPaths := ["nodes.nodeB.color"] }
    let s2 : ServerState Unit :=
      { version := 2, ops := [op1, op2], committedOpIds := ["k1", "k2"] }
    (s2.fetchSince 1).2 = s2 ∧
      (op2 ∈ (s2.fetchSince 1).1 ↔ op2 ∈ s2.ops ∧ 1 < op2.version) ∧
      ((s2.fetchSince 1).1.map Op.version).Pairwise (· < ·) := by
  have hreach : Reachable
      ({ version := 2,
         ops := [{ version := 1, opId := "k1", actorId := "Alice",
                   changes := [()], touchedPaths := ["nodes.nodeA.title"] },
                 { version := 2, opId := "k2", actorId := "Bob",
                   changes := [()], touchedPaths := ["nodes.nodeB.color"] }],
         committedOpIds := ["k1", "k2"] } : ServerState Unit) :=
    Reachable.commit
      ({ version := 1,
         ops := [{ version := 1, opId := "k1", actorId := "Alice",
                   changes := [()], touchedPaths := ["nodes.nodeA.title"] }],
         committedOpIds := ["k1"] } : ServerState Unit)
      { expectedVersion := 1, opId := "k2", actorId := "Bob",
        changes := [()], touchedPaths := ["nodes.nodeB.color"] }
      (.ok 2) _
      (Reachable.commit initServer
        { expectedVersion := 0, opId := "k1", actorId := "Alice",
          changes := [()], touchedPaths := ["nodes.nodeA.title"] }
        (.ok 1)
        ({ version := 1,
           ops := [{ version := 1, opId := "k1", actorId := "Alice",
                     changes := [()], touchedPaths := ["nodes.nodeA.title"] }],
           committedOpIds := ["k1"] } : ServerState Unit)
        Reachable.init (by decide))
      (by decide)
  have hspec := fetchSince_spec _ 1 hreach
  exact ⟨hspec.1, hspec.2.1 _, hspec.2.2⟩

/-! ### Document-content view: `getByPath` / `setByPath` and the strict-mode
revert block of `syncNow`.

The client's strict-first-wins reconciliation reads and writes the
materialized JSON view of the Automerge document through the source helpers
`getByPath` (a truthiness-guarded `reduce` over the dotted path) and
`setByPath` (navigate to the parent, then assign guarded by `if (target)`).
`Val` models that JSON view; `Val.undefinedined` models JS `undefined`.  Exotic
string properties (`"abc".length` etc.) are not modelled: property access on
a string primitive yields `undefined`. -/

/-- Helper for `splitDot`: accumulates the current segment (reversed). -/
def splitDotAux : List Char → List Char → List String
  | [], acc => [String.mk acc.reverse]
  | c :: cs, acc =>
      if c = '.' then String.mk acc.reverse :: splitDotAux cs []
      else splitDotAux cs (c :: acc)

/-- JS `path.split('.')` (`"".split('.') = [""]`, `".".split('.') = ["",""]`,
never the empty list). -/
def splitDot (s : String) : List String := splitDotAux s.data []

/-- A materialized JS value: `undefined`, a primitive (modelled by its
string rendering), or an object with insertion-ordered fields. -/
inductive Val where
  | undefined : Val
  | prim (s : String) : Val
  | obj (fields : List (String × Val)) : Val

/-- JS truthiness of a `Val` (`undefined`, `""` falsy; objects truthy). -/
def Val.truthy : Val → Bool
  | .undefined => false
  | .prim s => !(s == "")
  | .obj _ => true

/-- JS object field lookup (first occurrence; JS object keys are unique). -/
def lookupField : List (String × Val) → String → Option Val
  | [], _ => none
  | (k1, v1) :: fs, k => if k1 = k then some v1 else lookupField fs k

/-- Property read `o[k]` on a truthy value: field lookup on objects
(`undefined` when the key is missing); strings have no modelled
properties. -/
def Val.read (o : Val) (k : String) : Val :=
  match o with
  | .obj fs => (lookupField fs k).getD .undefined
  | _ => .undefined

/-- One step of `getByPath`'s reduce: `(o, k) => o && o[k]`. -/
def getStep (o : Val) (k : String) : Val :=
  if o.truthy then o.read k else o

/-- `getByPath` over an already-split path. -/
def getParts (o : Val) (parts : List String) : Val :=
  parts.foldl getStep o

/-- `Client.getByPath(obj, path)`:
`path.split('.').reduce((o, k) => o && o[k], obj)`. -/
def getByPath (o : Val) (path : String) : Val :=
  getParts o (splitDot path)

/-- JS property assignment on an object's field list: replace the value of
an existing key, else append the new key. -/
def setField : List (String × Val) → String → Val → List (String × Val)
  | [], k, v => [(k, v)]
  | (k1, v1) :: fs, k, v =>
      if k1 = k then (k1, v) :: fs else (k1, v1) :: setField fs k v

/-- The final assignment `if (target) target[last] = val`: only a (truthy)
object is actually written; assignment on a string primitive or a falsy
target silently does nothing. -/
def setProp (target : Val) (k : String) (v : Val) : Val :=
  match target with
  | .obj fs => .obj (setField fs k v)
  | t => t

/-- `setByPath` over an already-split path, rebuilding the value purely.
`parts.reduce((o, k) => o[k], obj)` is unguarded in the source, so reading a
property off `undefined` throws: that `TypeError` is modelled by `none`. -/
def setParts : Val → List String → Val → Option Val
  | t, [], _ => some t
  | t, [k], v => some (setProp t k v)
  | .obj fs, k :: ks, v =>
      match lookupField fs k with
      | some child => (setParts child ks v).map (fun c => .obj (setField fs k c))
      | none => (setParts .undefined ks v).map (fun _ => .obj fs)
  | .prim s, _ :: ks, v => (setParts .undefined ks v).map (fun _ => .prim s)
  | .undefined, _ :: _, _ => none

/-- `Client.setByPath(obj, path, val)`. -/
def setByPath (o : Val) (path : String) (v : Val) : Option Val :=
  setParts o (splitDot path) v

/-- A path at which `setByPath` really writes: navigation passes through
existing object fields and the parent of the final key is an object. -/
def settable : Val → List String → Bool
  | .obj _, [_] => true
  | .obj fs, k :: ks =>
      match lookupField fs k with
      | some child => settable child ks
      | none => false
  | _, _ => false

/-- `ancestorOf ps qs` holds when path `ps` is an initial segment of path
`qs`, i.e. the location named by `ps` contains the one named by `qs`. -/
def ancestorOf : List String → List String → Bool
  | [], _ => true
  | _ :: _, [] => false
  | a :: as, b :: bs => a == b && ancestorOf as bs

/-- One iteration of the strict-mode revert callback in `syncNow`:
`setByPath(d, path, getByPath(shadowDoc, path))` followed by
`touchedPaths.delete(path)`. -/
def revertStep (shadowDoc : Val) (st : Val × List String) (path : String) :
    Option (Val × List String) :=
  (setByPath st.1 path (getByPath shadowDoc path)).map
    (fun d => (d, st.2.filter (fun q => q ≠ path)))

/-- The strict-mode block of `syncNow` at the document-content level:
`conflicts = [...touchedPaths].filter(p => serverChangedPaths.has(p))`; if
non-empty, one local `A.change` reverts every conflicting path to the
shadow's value and deletes it from `touchedPaths`.  The revert uses the
engine's change operation directly (not the touched-path-recording
`Client.change` wrapper), so it records nothing back into `touchedPaths`. -/
def strictReconcile (localDoc shadowDoc : Val)
    (touchedPaths remoteTouched : List String) : Option (Val × List String) :=
  let conflicts := touchedPaths.filter (fun p => remoteTouched.contains p)
  if conflicts.isEmpty then some (localDoc, touchedPaths)
  else conflicts.foldlM (revertStep shadowDoc) (localDoc, touchedPaths)

@[simp] theorem getParts_nil (t : Val) : getParts t [] = t := rfl

@[simp] theorem getParts_cons (t : Val) (k : String) (ks : List String) :
    getParts t (k :: ks) = getParts (getStep t k) ks := rfl

@[simp] theorem getStep_obj (fs : List (String × Val)) (k : String) :
    getStep (.obj fs) k = (lookupField fs k).getD .undefined := rfl

@[simp] theorem lookupField_nil (k : String) : lookupField [] k = none := rfl

@[simp] theorem lookupField_cons (k1 : String) (v1 : Val)
    (fs : List (String × Val)) (k : String) :
    lookupField ((k1, v1) :: fs) k =
      if k1 = k then some v1 else lookupField fs k := rfl

@[simp] theorem setField_nil (k : String) (v : Val) :
    setField [] k v = [(k, v)] := rfl

@[simp] theorem setField_cons (k1 : String) (v1 : Val)
    (fs : List (String × Val)) (k : String) (v : Val) :
    setField ((k1, v1) :: fs) k v =
      if k1 = k then (k1, v) :: fs else (k1, v1) :: setField fs k v := rfl

@[simp] theorem settable_nil (t : Val) : settable t [] = false := by
  cases t <;> rfl

@[simp] theorem settable_undefined (ps : List String) :
    settable .undefined ps = false := by
  cases ps <;> rfl

@[simp] theorem settable_prim (s : String) (ps : List String) :
    settable (.prim s) ps = false := by
  cases ps <;> rfl

@[simp] theorem settable_obj_single (fs : List (String × Val)) (k : String) :
    settable (.obj fs) [k] = true := rfl

theorem settable_obj_cons2_some {fs : List (String × Val)} {k : String}
    {child : Val} (hl : lookupField fs k = some child) (k2 : String)
    (ks : List String) :
    settable (.obj fs) (k :: k2 :: ks) = settable child (k2 :: ks) := by
  show (match lookupField fs k with
        | some child => settable child (k2 :: ks)
        | none => false) = _
  rw [hl]

theorem settable_obj_cons2_none {fs : List (String × Val)} {k : String}
    (hl : lookupField fs k = none) (k2 : String) (ks : List String) :
    settable (.obj fs) (k :: k2 :: ks) = false := by
  show (match lookupField fs k with
        | some child => settable child (k2 :: ks)
        | none => false) = _
  rw [hl]

@[simp] theorem setParts_obj_single (fs : List (String × Val)) (k : String)
    (v : Val) : setParts (.obj fs) [k] v = some (.obj (setField fs k v)) := rfl

@[simp] theorem setParts_undef_single (k : String) (v : Val) :
    setParts .undefined [k] v = some .undefined := rfl

@[simp] theorem setParts_prim_single (s : String) (k : String) (v : Val) :
    setParts (.prim s) [k] v = some (.prim s) := rfl

theorem setParts_obj_cons2_some {fs : List (String × Val)} {k : String}
    {child : Val} (hl : lookupField fs k = some child) (k2 : String)
    (ks : List String) (v : Val) :
    setParts (.obj fs) (k :: k2 :: ks) v =
      (setParts child (k2 :: ks) v).map (fun c => .obj (setField fs k c)) := by
  show (match lookupField fs k with
        | some child =>
            (setParts child (k2 :: ks) v).map (fun c => Val.obj (setField fs k c))
        | none => (setParts .undefined (k2 :: ks) v).map (fun _ => Val.obj fs)) = _
  rw [hl]

theorem setParts_obj_cons2_none {fs : List (String × Val)} {k : String}
    (hl : lookupField fs k = none) (k2 : String) (ks : List String) (v : Val) :
    setParts (.obj fs) (k :: k2 :: ks) v =
      (setParts .undefined (k2 :: ks) v).map (fun _ => .obj fs) := by
  show (match lookupField fs k with
        | some child =>
            (setParts child (k2 :: ks) v).map (fun c => Val.obj (setField fs k c))
        | none => (setParts .undefined (k2 :: ks) v).map (fun _ => Val.obj fs)) = _
  rw [hl]

@[simp] theorem setParts_prim_cons2 (s : String) (k k2 : String)
    (ks : List String) (v : Val) :
    setParts (.prim s) (k :: k2 :: ks) v =
      (setParts .undefined (k2 :: ks) v).map (fun _ => .prim s) := rfl

@[simp] theorem setParts_undef_cons2 (k k2 : String) (ks : List String)
    (v : Val) : setParts .undefined (k :: k2 :: ks) v = none := rfl

@[simp] theorem ancestorOf_nil_left (qs : List String) :
    ancestorOf [] qs = true := rfl

@[simp] theorem ancestorOf_cons_nil (a : String) (as : List String) :
    ancestorOf (a :: as) [] = false := rfl

@[simp] theorem ancestorOf_cons_cons (a b : String) (as bs : List String) :
    ancestorOf (a :: as) (b :: bs) = (a == b && ancestorOf as bs) := rfl

theorem lookup_setField_self (fs : List (String × Val)) (k : String) (v : Val) :
    lookupField (setField fs k v) k = some v := by
  induction fs with
  | nil => simp
  | cons a fs ih =>
    obtain ⟨k1, v1⟩ := a
    by_cases h : k1 = k
    · subst h; simp
    · simp [h, ih]

theorem lookup_setField_ne (fs : List (String × Val)) (k k' : String) (v : Val)
    (h : k' ≠ k) : lookupField (setField fs k v) k' = lookupField fs k' := by
  induction fs with
  | nil => simp [Ne.symm h]
  | cons a fs ih =>
    obtain ⟨k1, v1⟩ := a
    by_cases h1 : k1 = k
    · subst h1
      simp [Ne.symm h]
    · by_cases h2 : k1 = k'
      · subst h2; simp [h1]
      · simp [h1, h2, ih]

/-- Writing at a `settable` path succeeds and the written value is what a
subsequent read at that path returns. -/
theorem setParts_get (ps : List String) :
    ∀ (t : Val) (v : Val), settable t ps = true →
      ∃ t2, setParts t ps v = some t2 ∧ getParts t2 ps = v := by
  induction ps with
  | nil => intro t v h; simp at h
  | cons k ks ih =>
    intro t v h
    cases t with
    | undefined => simp at h
    | prim s => simp at h
    | obj fs =>
      cases ks with
      | nil =>
        refine ⟨.obj (setField fs k v), rfl, ?_⟩
        simp [lookup_setField_self]
      | cons k2 ks2 =>
        cases hl : lookupField fs k with
        | none => rw [settable_obj_cons2_none hl] at h; exact absurd h (by simp)
        | some child =>
          rw [settable_obj_cons2_some hl] at h
          obtain ⟨c2, hc2, hget⟩ := ih child v h
          refine ⟨.obj (setField fs k c2), ?_, ?_⟩
          · rw [setParts_obj_cons2_some hl, hc2]
            rfl
          · simpa [lookup_setField_self] using hget

/-- Frame property of `setByPath`: a successful write at path `qs` leaves
reads and settability at any path that neither contains nor is contained in
`qs` unchanged. -/
theorem setParts_frame (qs : List String) :
    ∀ (t t2 v : Val) (ps : List String),
      setParts t qs v = some t2 →
      ancestorOf qs ps = false → ancestorOf ps qs = false →
      getParts t2 ps = getParts t ps ∧ settable t2 ps = settable t ps := by
  induction qs with
  | nil => intro t t2 v ps hset hqp hpq; simp at hqp
  | cons q qs' ih =>
    intro t t2 v ps hset hqp hpq
    cases ps with
    | nil => simp at hpq
    | cons p ps' =>
      cases t with
      | undefined =>
        cases qs' with
        | nil =>
          have ht2 : t2 = .undefined := by simpa [eq_comm] using hset
          subst ht2; exact ⟨rfl, rfl⟩
        | cons q2 qs2 => simp at hset
      | prim s =>
        have ht2 : t2 = .prim s := by
          cases qs' with
          | nil => simpa [eq_comm] using hset
          | cons q2 qs2 =>
            rw [setParts_prim_cons2] at hset
            cases hw : setParts .undefined (q2 :: qs2) v with
            | none => rw [hw] at hset; simp at hset
            | some w => rw [hw] at hset; simpa [eq_comm] using hset
        subst ht2; exact ⟨rfl, rfl⟩
      | obj fs =>
        cases qs' with
        | nil =>
          have hqp' : q ≠ p := by simpa using hqp
          have ht2 : t2 = .obj (setField fs q v) := by
            simpa [eq_comm] using hset
          subst ht2
          have hlk : lookupField (setField fs q v) p = lookupField fs p :=
            lookup_setField_ne fs q p v (Ne.symm hqp')
          constructor
          · simp [hlk]
          · cases ps' with
            | nil => simp
            | cons p2 ps2 =>
              cases hp : lookupField fs p with
              | none =>
                rw [settable_obj_cons2_none (hlk.trans hp),
                  settable_obj_cons2_none hp]
              | some c =>
                rw [settable_obj_cons2_some (hlk.trans hp),
                  settable_obj_cons2_some hp]
        | cons q2 qs2 =>
          cases hl : lookupField fs q with
          | none =>
            rw [setParts_obj_cons2_none hl] at hset
            cases hw : setParts .undefined (q2 :: qs2) v with
            | none => rw [hw] at hset; simp at hset
            | some w =>
              rw [hw] at hset
              have ht2 : t2 = .obj fs := by simpa [eq_comm] using hset
              subst ht2; exact ⟨rfl, rfl⟩
          | some child =>
            rw [setParts_obj_cons2_some hl] at hset
            cases hc : setParts child (q2 :: qs2) v with
            | none => rw [hc] at hset; simp at hset
            | some c2 =>
              rw [hc] at hset
              have ht2 : t2 = .obj (setField fs q c2) := by
                simpa [eq_comm] using hset
              subst ht2
              by_cases hpq2 : p = q
              · subst hpq2
                have hqp' : ancestorOf (q2 :: qs2) ps' = false := by
                  simpa using hqp
                have hpq' : ancestorOf ps' (q2 :: qs2) = false := by
                  simpa using hpq
                obtain ⟨hg, hs⟩ := ih child c2 v ps' hc hqp' hpq'
                constructor
                · simp [lookup_setField_self, hl, hg]
                · cases ps' with
                  | nil => simp
                  | cons p2 ps2 =>
                    rw [settable_obj_cons2_some (lookup_setField_self fs p c2),
                      settable_obj_cons2_some hl]
                    exact hs
              · have hlk2 : lookupField (setField fs q c2) p = lookupField fs p :=
                  lookup_setField_ne fs q p c2 hpq2
                constructor
                · simp [hlk2]
                · cases ps' with
                  | nil => simp
                  | cons p2 ps2 =>
                    cases hp : lookupField fs p with
                    | none =>
                      rw [settable_obj_cons2_none (hlk2.trans hp),
                        settable_obj_cons2_none hp]
                    | some c =>
                      rw [settable_obj_cons2_some (hlk2.trans hp),
                        settable_obj_cons2_some hp]

/-- Running the revert callback over a list of pairwise non-nested,
writable conflict paths: every reverted path reads back the shadow's value,
the touched set is exactly the original minus the reverted paths, and
locations disjoint from all reverted paths are untouched. -/
theorem revert_fold (shadowDoc : Val) :
    ∀ (cs : List String) (d0 : Val) (tp0 : List String),
      (∀ p ∈ cs, settable d0 (splitDot p) = true) →
      List.Pairwise (fun p q => ancestorOf (splitDot p) (splitDot q) = false ∧
        ancestorOf (splitDot q) (splitDot p) = false) cs →
      ∃ d1 tp1,
        List.foldlM (revertStep shadowDoc) (d0, tp0) cs = some (d1, tp1) ∧
        (∀ p ∈ cs, getParts d1 (splitDot p) = getByPath shadowDoc p) ∧
        (∀ q, q ∈ tp1 ↔ q ∈ tp0 ∧ q ∉ cs) ∧
        (∀ rs, (∀ p ∈ cs, ancestorOf rs (splitDot p) = false ∧
            ancestorOf (splitDot p) rs = false) →
          getParts d1 rs = getParts d0 rs ∧
            settable d1 rs = settable d0 rs) := by
  intro cs
  induction cs with
  | nil =>
    intro d0 tp0 _ _
    exact ⟨d0, tp0, rfl, by simp, by simp, fun rs _ => ⟨rfl, rfl⟩⟩
  | cons c cs' ih =>
    intro d0 tp0 hset hpw
    obtain ⟨d0', hd0', hget0⟩ :=
      setParts_get (splitDot c) d0 (getByPath shadowDoc c) (hset c (by simp))
    have hstep : revertStep shadowDoc (d0, tp0) c =
        some (d0', tp0.filter (fun q => q ≠ c)) := by
      simp [revertStep, setByPath, hd0']
    have hR : ∀ p ∈ cs', ancestorOf (splitDot c) (splitDot p) = false ∧
        ancestorOf (splitDot p) (splitDot c) = false := by
      intro p hp
      exact (List.pairwise_cons.1 hpw).1 p hp
    have hset' : ∀ p ∈ cs', settable d0' (splitDot p) = true := by
      intro p hp
      have hfr := setParts_frame (splitDot c) d0 d0' (getByPath shadowDoc c)
        (splitDot p) hd0' (hR p hp).1 (hR p hp).2
      rw [hfr.2]
      exact hset p (by simp [hp])
    obtain ⟨d1, tp1, hfold, hget, htp, hframe⟩ :=
      ih d0' (tp0.filter (fun q => q ≠ c)) hset' (List.pairwise_cons.1 hpw).2
    refine ⟨d1, tp1, ?_, ?_, ?_, ?_⟩
    · rw [List.foldlM_cons, hstep]
      exact hfold
    · intro p hp
      rcases List.mem_cons.1 hp with rfl | hp'
      · have hfr := hframe (splitDot p)
          (fun r hr => ⟨(hR r hr).1, (hR r hr).2⟩)
        rw [hfr.1, hget0]
      · exact hget p hp'
    · intro q
      rw [htp q]
      simp only [List.mem_filter, decide_eq_true_eq, List.mem_cons, not_or]
      tauto
    · intro rs hrs
      have h1 := hframe rs (fun p hp => hrs p (by simp [hp]))
      have h2 := setParts_frame (splitDot c) d0 d0' (getByPath shadowDoc c)
        rs hd0' (hrs c (by simp)).2 (hrs c (by simp)).1
      exact ⟨h1.1.trans h2.1, h1.2.trans h2.2⟩

/-- C2 — Strict-first-wins reconciliation: the conflict set is exactly
`touchedPaths ∩ remoteTouched`; each conflicting path's value in the local
replica is overwritten with the shadow replica's (server-accepted) value;
each conflicting path is removed from `touchedPaths`; and the reverting
mutation re-adds nothing: afterwards `touchedPaths` holds exactly the
originally-touched non-conflicting paths.  Hypotheses: each conflicting
path is writable in the local document and no conflicting path is nested
inside another. -/
theorem strict_first_wins_reconcile (localDoc shadowDoc : Val)
    (touchedPaths remoteTouched : List String)
    (hset : ∀ p ∈ touchedPaths.filter (fun p => remoteTouched.contains p),
      settable localDoc (splitDot p) = true)
    (hsep : List.Pairwise
      (fun p q => ancestorOf (splitDot p) (splitDot q) = false ∧
        ancestorOf (splitDot q) (splitDot p) = false)
      (touchedPaths.filter (fun p => remoteTouched.contains p))) :
    ∃ d1 tp1,
      strictReconcile localDoc shadowDoc touchedPaths remoteTouched =
        some (d1, tp1) ∧
      (∀ p ∈ touchedPaths.filter (fun p => remoteTouched.contains p),
        getByPath d1 p = getByPath shadowDoc p) ∧
      (∀ q, q ∈ tp1 ↔ q ∈ touchedPaths ∧ q ∉ remoteTouched) ∧
      (∀ p ∈ touchedPaths.filter (fun p => remoteTouched.contains p),
        p ∉ tp1) := by
  by_cases hemp :
      (touchedPaths.filter (fun p => remoteTouched.contains p)).isEmpty
  · have hnil : touchedPaths.filter (fun p => remoteTouched.contains p) = [] :=
      List.isEmpty_iff.1 hemp
    refine ⟨localDoc, touchedPaths, ?_, ?_, ?_, ?_⟩
    · simp only [strictReconcile, hnil]
      rfl
    · rw [hnil]; simp
    · intro q
      constructor
      · intro hq
        refine ⟨hq, fun hr => ?_⟩
        have hmem : q ∈ touchedPaths.filter (fun p => remoteTouched.contains p) := by
          simp [List.mem_filter, hq, List.elem_iff]
          exact hr
        rw [hnil] at hmem
        simp at hmem
      · exact fun h => h.1
    · rw [hnil]; simp
  · obtain ⟨d1, tp1, hfold, hget, htp, _⟩ :=
      revert_fold shadowDoc
        (touchedPaths.filter (fun p => remoteTouched.contains p))
        localDoc touchedPaths hset hsep
    have hne : (touchedPaths.filter (fun p => remoteTouched.contains p)).isEmpty
        = false := by
      cases hb : (touchedPaths.filter (fun p => remoteTouched.contains p)).isEmpty
      · rfl
      · exact absurd hb hemp
    refine ⟨d1, tp1, ?_, ?_, ?_, ?_⟩
    · have hrw : strictReconcile localDoc shadowDoc touchedPaths remoteTouched =
          List.foldlM (revertStep shadowDoc) (localDoc, touchedPaths)
            (touchedPaths.filter (fun p => remoteTouched.contains p)) := by
        simp only [strictReconcile]
        rw [if_neg (by rw [hne]; simp)]
      rw [hrw]
      exact hfold
    · exact hget
    · intro q
      rw [htp q]
      have hiff : q ∈ touchedPaths.filter (fun p => remoteTouched.contains p) ↔
          q ∈ touchedPaths ∧ q ∈ remoteTouched := by
        rw [List.mem_filter]
        simp [List.elem_iff]
      constructor
      · rintro ⟨hq, hnc⟩
        exact ⟨hq, fun hr => hnc (hiff.2 ⟨hq, hr⟩)⟩
      · rintro ⟨hq, hnr⟩
        exact ⟨hq, fun hc => hnr (hiff.1 hc).2⟩
    · intro p hp
      rw [htp p]
      rintro ⟨_, hnp⟩
      exact hnp hp

/-- C2 witness: a client that touched `nodes.nodeA.title` (conflicting) and
`nodes.nodeB.color` (not conflicting) reverts the title to the shadow's
value, keeps only the non-conflicting path in `touchedPaths`, and does not
re-add the reverted path. -/
theorem strict_first_wins_reconcile_witness :
    let shadowDoc : Val := .obj [("nodes", .obj
      [("nodeA", .obj [("title", .prim "First"), ("color", .prim "blue")]),
       ("nodeB", .obj [("color", .prim "green")])])]
    let localDoc : Val := .obj [("nodes", .obj
      [("nodeA", .obj [("title", .prim "Second"), ("color", .prim "blue")]),
       ("nodeB", .obj [("color", .prim "red")])])]
    ∃ d1 tp1,
      strictReconcile localDoc shadowDoc
        ["nodes.nodeA.title", "nodes.nodeB.color"] ["nodes.nodeA.title"] =
        some (d1, tp1) ∧
      (∀ p ∈ (["nodes.nodeA.title", "nodes.nodeB.color"] : List String).filter
          (fun p => (["nodes.nodeA.title"] : List String).contains p),
        getByPath d1 p = getByPath shadowDoc p) ∧
      (∀ q, q ∈ tp1 ↔
        q ∈ (["nodes.nodeA.title", "nodes.nodeB.color"] : List String) ∧
          q ∉ (["nodes.nodeA.title"] : List String)) ∧
      (∀ p ∈ (["nodes.nodeA.title", "nodes.nodeB.color"] : List String).filter
          (fun p => (["nodes.nodeA.title"] : List String).contains p),
        p ∉ tp1) :=
  strict_first_wins_reconcile _ _ _ _ (by decide) (by decide)

/-! ### Client: sync cycle, local edit, undo.

The Automerge engine is external to the repository (spec §6 lists the
consumed contract), so the client is parameterized over an abstract
`Engine`.  Partial operations (`A.getChanges`, which throws on history
divergence, and the strict-mode revert mutation, whose `setByPath` can
throw — see the `Val` model above) return `Option`, `none` modelling the
thrown exception. -/

/-- The document-engine operations the client consumes:
`A.applyChanges` (remote application), `A.getChanges` (change-set between
two history points; `none` models the exception on divergent histories),
`A.save` / `A.load` (snapshots), the strict-mode revert mutation
(`A.change(localDoc, 'Revert conflicts', ...)` given the shadow document
and the conflict paths; `none` models a throwing callback), and the
touched-path diff used by `Client.change` (`A.diff` of the heads before and
after, paths dot-joined). -/
structure Engine (Doc Snap Change : Type) where
  applyChanges : Doc → List Change → Doc
  getChanges : Doc → Doc → Option (List Change)
  save : Doc → Snap
  load : Snap → Doc
  changeRevert : Doc → Doc → List String → Option Doc
  diffTouched : Doc → Doc → List String

variable {Doc Snap : Type}

/-- The client's mutable state (`class Client`, minus the server handle,
which is passed explicitly). -/
structure ClientState (Doc Snap : Type) where
  actorId : String
  localDoc : Doc
  shadowDoc : Doc
  serverVersion : Nat
  touchedPaths : List String
  isOnline : Bool
  strictMode : Bool
  undoStack : List Snap
  deriving DecidableEq, Repr

/-- JS `Set.add` over the insertion-ordered list model. -/
def addPath (ts : List String) (p : String) : List String :=
  if ts.contains p then ts else ts ++ [p]

/-- `Client.change(message, cb)`: push a snapshot, apply the local mutation
(abstracted as `mut`), and union the diffed touched paths into
`touchedPaths`. -/
def ClientState.change (eng : Engine Doc Snap Change)
    (c : ClientState Doc Snap) (mutFn : Doc → Doc) : ClientState Doc Snap :=
  let snap := eng.save c.localDoc
  let newDoc := mutFn c.localDoc
  let newPaths := eng.diffTouched c.localDoc newDoc
  { c with undoStack := c.undoStack ++ [snap],
           localDoc := newDoc,
           touchedPaths := newPaths.foldl addPath c.touchedPaths }

/-- `Client.undo()`: if the stack is non-empty, pop the most recent
snapshot (`undoStack.pop()`) and replace `localDoc` with `A.load(snapshot)`
wholesale.  Nothing else is modified. -/
def ClientState.undo (eng : Engine Doc Snap Change)
    (c : ClientState Doc Snap) : ClientState Doc Snap :=
  match c.undoStack.getLast? with
  | none => c
  | some snap =>
      { c with localDoc := eng.load snap, undoStack := c.undoStack.dropLast }

/-- Observable events of one `syncNow` call: each `fetchSince` call (with
the number of ops returned), each `commit` call (successful or rejected as
stale), and the `console.error` log in the catch around `A.getChanges`. -/
inductive SyncEvent where
  | fetched (n : Nat)
  | committed (v : Nat)
  | staleRetry (currentVersion : Nat)
  | divergenceLogged
  deriving DecidableEq, Repr

/-- Result of a `syncNow` call: a normal return (with final client and
server states and the event trace), an exception escaping `syncNow`
(`throw e` on a non-stale commit error, or a throwing revert callback), or
fuel exhaustion (modelling only that the unbounded `while` retry loop was
cut off; never reached in the claims below). -/
inductive SyncResult (Doc Snap Change : Type) where
  | normal (c : ClientState Doc Snap) (s : ServerState Change)
      (trace : List SyncEvent)
  | threw (trace : List SyncEvent)
  | fuelOut (trace : List SyncEvent)
  deriving DecidableEq, Repr

/-- The trace component of a result. -/
def SyncResult.trace : SyncResult Doc Snap Change → List SyncEvent
  | .normal _ _ tr => tr
  | .threw tr => tr
  | .fuelOut tr => tr

/-- Step 2 and 3 of the cycle (the `ops.length > 0` branch): apply the
pulled ops' concatenated changes to fresh copies of shadow and local,
advance `serverVersion` to the last op's version, and in strict mode revert
conflicting paths — one engine mutation plus `touchedPaths.delete(path)`
for each conflict.  `none` models a throwing revert callback.  An empty
pull leaves the client untouched. -/
def pullReconcile (eng : Engine Doc Snap Change) (c : ClientState Doc Snap) :
    List (Op Change) → Option (ClientState Doc Snap)
  | [] => some c
  | o :: os =>
    let changes := ((o :: os).map (fun op => op.changes)).flatten
    let remoteTouched := ((o :: os).map (fun op => op.touchedPaths)).flatten
    let newShadow := eng.applyChanges c.shadowDoc changes
    let newLocal := eng.applyChanges c.localDoc changes
    let c1 := { c with
                shadowDoc := newShadow,
                localDoc := newLocal,
                serverVersion := ((o :: os).getLast (by simp)).version }
    if c.strictMode then
      let conflicts :=
        c.touchedPaths.filter (fun p => remoteTouched.contains p)
      if conflicts.isEmpty then some c1
      else
        match eng.changeRevert newLocal newShadow conflicts with
        | some reverted =>
            some { c1 with
                   localDoc := reverted,
                   touchedPaths := c.touchedPaths.filter
                     (fun p => ¬ conflicts.contains p) }
        | none => none
    else some c1

/-- Outcome of one iteration of the `while (retry)` loop: either the cycle
finishes with a result (`break`, normal return, or an escaping exception),
or a `STALE_VERSION` rejection sends it into another iteration. -/
inductive StepOut (Doc Snap Change : Type) where
  | done (r : SyncResult Doc Snap Change)
  | retry (ctr : Nat) (c : ClientState Doc Snap) (s : ServerState Change)
      (tr : List SyncEvent)

/-- One iteration of the loop body of `Client.syncNow`: pull
(`fetchSince(serverVersion)`), apply and reconcile (`pullReconcile`),
compute `A.getChanges(shadowDoc, localDoc)` — on throw, `console.error` and
`break` (so the cycle ends normally); if the change list is empty, `break`;
else commit — on success fast-forward shadow, clear `touchedPaths` and
finish, on `STALE_VERSION` retry, on any other thrown error rethrow.
`gen` supplies the `randomUUID()` results. -/
def syncStep (eng : Engine Doc Snap Change) (gen : Nat → String) (ctr : Nat)
    (c : ClientState Doc Snap) (s : ServerState Change) (tr : List SyncEvent) :
    StepOut Doc Snap Change :=
  let pulled := (s.fetchSince c.serverVersion).1
  let tr1 := tr ++ [.fetched pulled.length]
  match pullReconcile eng c pulled with
  | none => .done (.threw tr1)
  | some c1 =>
    match eng.getChanges c1.shadowDoc c1.localDoc with
    | none => .done (.normal c1 s (tr1 ++ [.divergenceLogged]))
    | some changes =>
      if changes.isEmpty then .done (.normal c1 s tr1)
      else
        let req : CommitReq Change :=
          { expectedVersion := c1.serverVersion,
            opId := gen ctr,
            actorId := c1.actorId,
            changes := changes,
            touchedPaths := c1.touchedPaths }
        match s.commit req with
        | none => .done (.threw tr1)
        | some (.stale cv, s1) =>
            .retry (ctr + 1) c1 s1 (tr1 ++ [.staleRetry cv])
        | some (.ok v, s1) =>
            .done (.normal { c1 with
                             serverVersion := v,
                             shadowDoc := c1.localDoc,
                             touchedPaths := [] } s1 (tr1 ++ [.committed v]))

/-- The fuelled `while (retry)` loop of `Client.syncNow`. -/
def syncLoop (eng : Engine Doc Snap Change) (gen : Nat → String) :
    Nat → Nat → ClientState Doc Snap → ServerState Change →
    List SyncEvent → SyncResult Doc Snap Change
  | 0, _, _, _, tr => .fuelOut tr
  | fuel + 1, ctr, c, s, tr =>
    match syncStep eng gen ctr c s tr with
    | .done r => r
    | .retry ctr1 c1 s1 tr1 => syncLoop eng gen fuel ctr1 c1 s1 tr1

/-- `Client.syncNow()`: `if (!this.isOnline) return;`, then the retry
loop. -/
def syncNow (eng : Engine Doc Snap Change) (gen : Nat → String) (fuel : Nat)
    (c : ClientState Doc Snap) (s : ServerState Change) :
    SyncResult Doc Snap Change :=
  if c.isOnline then syncLoop eng gen fuel 0 c s [] else .normal c s []

/-- A minimal concrete engine for running the protocol on explicit states:
a document is the list of changes it has absorbed, a change-set between two
documents is the missing suffix, and snapshots are plain copies. -/
def listEngine : Engine (List Nat) (List Nat) Nat where
  applyChanges d cs := d ++ cs
  getChanges a b := if b.take a.length = a then some (b.drop a.length) else none
  save d := d
  load s := s
  changeRevert l _ _ := some l
  diffTouched _ _ := []

/-- C8 — If the client is offline, `syncNow` aborts immediately: no
`fetchSince` call, no `commit` call (the trace is empty) and both the
client state and the server state are returned unchanged. -/
theorem syncNow_offline (eng : Engine Doc Snap Change) (gen : Nat → String)
    (fuel : Nat) (c : ClientState Doc Snap) (s : ServerState Change)
    (hoff : c.isOnline = false) :
    syncNow eng gen fuel c s = .normal c s [] := by
  simp [syncNow, hoff]

/-- C8 witness: a concrete offline client with pending local edits syncs
into a no-op. -/
theorem syncNow_offline_witness :
    let c : ClientState (List Nat) (List Nat) :=
      { actorId := "Bob", localDoc := [1, 2], shadowDoc := [1],
        serverVersion := 1, touchedPaths := ["nodes.nodeB.color"],
        isOnline := false, strictMode := false, undoStack := [] }
    syncNow listEngine (fun _ => "op0") 5 c (initServer : ServerState Nat) =
      .normal c initServer [] :=
  syncNow_offline _ _ _ _ _ rfl

/-- C6 — Empty sync is a no-op: if the local replica equals the shadow
replica (so the engine reports an empty pending change-set) and the server
log holds nothing newer than `serverVersion`, then `syncNow` makes no
commit call and leaves every component of the client state and the whole
server state unchanged (the trace records at most the one empty fetch). -/
theorem syncNow_empty_noop (eng : Engine Doc Snap Change) (gen : Nat → String)
    (fuel : Nat) (c : ClientState Doc Snap) (s : ServerState Change)
    (heq : c.localDoc = c.shadowDoc)
    (hrefl : ∀ d, eng.getChanges d d = some [])
    (hold : ∀ op ∈ s.ops, op.version ≤ c.serverVersion) :
    syncNow eng gen (fuel + 1) c s =
      .normal c s (if c.isOnline then [.fetched 0] else []) := by
  have hp : (s.fetchSince c.serverVersion).1 = [] := by
    simp only [ServerState.fetchSince]
    exact List.filter_eq_nil_iff.mpr
      (fun op hop => by simpa using Nat.not_lt.2 (hold op hop))
  have hgc : eng.getChanges c.shadowDoc c.localDoc = some [] := by
    rw [heq]; exact hrefl c.shadowDoc
  cases hon : c.isOnline
  · simp [syncNow, hon]
  · simp only [syncNow, hon, if_true]
    simp only [syncLoop, syncStep, hp, pullReconcile, hgc]
    simp

/-- C6 witness: a fully synced concrete client (local = shadow, server has
nothing newer) syncs into a single empty fetch and no state change. -/
theorem syncNow_empty_noop_witness :
    let c : ClientState (List Nat) (List Nat) :=
      { actorId := "Alice", localDoc := [7], shadowDoc := [7],
        serverVersion := 1, touchedPaths := [], isOnline := true,
        strictMode := false, undoStack := [] }
    let s : ServerState Nat :=
      { version := 1,
        ops := [{ version := 1, opId := "k1", actorId := "Alice",
                  changes := [7], touchedPaths := [] }],
        committedOpIds := ["k1"] }
    syncNow listEngine (fun _ => "op0") 5 c s = .normal c s [.fetched 0] := by
  have h := syncNow_empty_noop listEngine (fun _ => "op0") 4
    { actorId := "Alice", localDoc := [7], shadowDoc := [7],
      serverVersion := 1, touchedPaths := [], isOnline := true,
      strictMode := false, undoStack := [] }
    { version := 1,
      ops := [{ version := 1, opId := "k1", actorId := "Alice",
                changes := [7], touchedPaths := [] }],
      committedOpIds := ["k1"] }
    rfl (fun d => by simp [listEngine]) (by decide)
  simpa using h

/-- If one loop iteration finishes the cycle with the divergence log in its
trace, the cycle finished *normally* with that log as its final event: the
`catch` around `A.getChanges` only logs and breaks. -/
theorem syncStep_done_divergence (eng : Engine Doc Snap Change)
    (gen : Nat → String) (ctr : Nat) (c : ClientState Doc Snap)
    (s : ServerState Change) (tr : List SyncEvent)
    (r : SyncResult Doc Snap Change)
    (hdone : syncStep eng gen ctr c s tr = .done r)
    (htr : SyncEvent.divergenceLogged ∉ tr)
    (hmem : SyncEvent.divergenceLogged ∈ r.trace) :
    ∃ c1 s1 tr0, r = .normal c1 s1 (tr0 ++ [SyncEvent.divergenceLogged]) := by
  simp only [syncStep] at hdone
  split at hdone
  · simp only [StepOut.done.injEq] at hdone
    subst hdone
    simp [SyncResult.trace, htr] at hmem
  · split at hdone
    · simp only [StepOut.done.injEq] at hdone
      subst hdone
      exact ⟨_, s, tr ++ [.fetched (s.fetchSince c.serverVersion).1.length],
        rfl⟩
    · split at hdone
      · simp only [StepOut.done.injEq] at hdone
        subst hdone
        simp [SyncResult.trace, htr] at hmem
      · split at hdone
        · simp only [StepOut.done.injEq] at hdone
          subst hdone
          simp [SyncResult.trace, htr] at hmem
        · exact absurd hdone (by simp)
        · simp only [StepOut.done.injEq] at hdone
          subst hdone
          simp [SyncResult.trace, htr] at hmem

/-- A `STALE_VERSION` retry never adds the divergence log to the trace. -/
theorem syncStep_retry_no_divergence (eng : Engine Doc Snap Change)
    (gen : Nat → String) (ctr : Nat) (c : ClientState Doc Snap)
    (s : ServerState Change) (tr : List SyncEvent) (ctr1 : Nat)
    (c1 : ClientState Doc Snap) (s1 : ServerState Change)
    (tr1 : List SyncEvent)
    (hretry : syncStep eng gen ctr c s tr = .retry ctr1 c1 s1 tr1)
    (htr : SyncEvent.divergenceLogged ∉ tr) :
    SyncEvent.divergenceLogged ∉ tr1 := by
  simp only [syncStep] at hretry
  split at hretry
  · exact absurd hretry (by simp)
  · split at hretry
    · exact absurd hretry (by simp)
    · split at hretry
      · exact absurd hretry (by simp)
      · split at hretry
        · exact absurd hretry (by simp)
        · simp only [StepOut.retry.injEq] at hretry
          obtain ⟨-, -, -, rfl⟩ := hretry
          simp [htr]
        · exact absurd hretry (by simp)

/-- Helper for C5: over the whole retry loop, if the divergence log ever
appears, the loop returns normally with it as the final trace event. -/
theorem syncLoop_divergence_swallowed (eng : Engine Doc Snap Change)
    (gen : Nat → String) :
    ∀ (fuel ctr : Nat) (c : ClientState Doc Snap) (s : ServerState Change)
      (tr : List SyncEvent),
      SyncEvent.divergenceLogged ∉ tr →
      SyncEvent.divergenceLogged ∈ (syncLoop eng gen fuel ctr c s tr).trace →
      ∃ c1 s1 tr0, syncLoop eng gen fuel ctr c s tr =
        .normal c1 s1 (tr0 ++ [SyncEvent.divergenceLogged]) := by
  intro fuel
  induction fuel with
  | zero =>
    intro ctr c s tr htr hmem
    simp only [syncLoop, SyncResult.trace] at hmem
    exact absurd hmem htr
  | succ fuel ih =>
    intro ctr c s tr htr hmem
    simp only [syncLoop] at hmem ⊢
    cases hstep : syncStep eng gen ctr c s tr with
    | done r =>
      rw [hstep] at hmem
      exact syncStep_done_divergence eng gen ctr c s tr r hstep htr hmem
    | retry ctr1 c1 s1 tr1 =>
      rw [hstep] at hmem
      exact ih ctr1 c1 s1 tr1
        (syncStep_retry_no_divergence eng gen ctr c s tr ctr1 c1 s1 tr1
          hstep htr) hmem

/-- C5 (amended) — When computing the pending change-set throws (history
divergence), the cycle stops: nothing — in particular no commit — happens
after the failure.  But the failure is **not** surfaced to the caller as a
distinct error condition: it is only logged (`console.error`) and
swallowed, and `syncNow` returns normally with the log as the final trace
event. -/
theorem syncNow_divergence_swallowed (eng : Engine Doc Snap Change)
    (gen : Nat → String) (fuel : Nat) (c : ClientState Doc Snap)
    (s : ServerState Change)
    (hmem : SyncEvent.divergenceLogged ∈ (syncNow eng gen fuel c s).trace) :
    ∃ c1 s1 tr0, syncNow eng gen fuel c s =
      .normal c1 s1 (tr0 ++ [SyncEvent.divergenceLogged]) := by
  unfold syncNow at hmem ⊢
  cases hon : c.isOnline with
  | false =>
    rw [hon] at hmem
    simp [SyncResult.trace] at hmem
  | true =>
    rw [hon] at hmem
    simp only [if_true] at hmem ⊢
    exact syncLoop_divergence_swallowed eng gen fuel 0 c s []
      (by simp) hmem

/-- C5 witness: a concrete client whose shadow is not an ancestor of its
local document (so `A.getChanges` throws); the cycle ends normally with the
divergence log as the last event. -/
theorem syncNow_divergence_swallowed_witness :
    let c : ClientState (List Nat) (List Nat) :=
      { actorId := "Alice", localDoc := [], shadowDoc := [9],
        serverVersion := 0, touchedPaths := [], isOnline := true,
        strictMode := false, undoStack := [] }
    ∃ c1 s1 tr0,
      syncNow listEngine (fun _ => "op0") 5 c (initServer : ServerState Nat) =
        .normal c1 s1 (tr0 ++ [SyncEvent.divergenceLogged]) :=
  syncNow_divergence_swallowed listEngine (fun _ => "op0") 5 _ _ (by decide)

/-- C5 counterexample — the claim as stated is false on the code: at a
concrete diverged state the sync cycle completes with a plain normal
return (trace: one empty fetch, then the console log), and never an
escaping error; the `IncompatibleHistory` condition is not surfaced to the
caller. -/
theorem syncNow_divergence_not_surfaced :
    let c : ClientState (List Nat) (List Nat) :=
      { actorId := "Alice", localDoc := [], shadowDoc := [9],
        serverVersion := 0, touchedPaths := [], isOnline := true,
        strictMode := false, undoStack := [] }
    syncNow listEngine (fun _ => "op0") 5 c (initServer : ServerState Nat) =
      .normal c initServer [.fetched 0, .divergenceLogged] ∧
    ∀ tr, syncNow listEngine (fun _ => "op0") 5 c
      (initServer : ServerState Nat) ≠ .threw tr := by
  intro c
  have h1 : syncNow listEngine (fun _ => "op0") 5 c
      (initServer : ServerState Nat) =
      .normal c initServer [.fetched 0, .divergenceLogged] := rfl
  exact ⟨h1, fun tr hth => SyncResult.noConfusion (h1.symm.trans hth)⟩

/-- C7 (amended) — `undo()` on a non-empty stack pops the most recent
snapshot and replaces `localDoc` with the loaded snapshot wholesale (not a
merge with the previous local state); everything else — in particular
`touchedPaths`, which is neither cleared nor recomputed — is left
unchanged. -/
theorem undo_pops_wholesale (eng : Engine Doc Snap Change)
    (c : ClientState Doc Snap) (stk : List Snap) (snap : Snap)
    (hstk : c.undoStack = stk ++ [snap]) :
    c.undo eng = { c with localDoc := eng.load snap, undoStack := stk } := by
  unfold ClientState.undo
  rw [hstk]
  simp [List.getLast?_concat, List.dropLast_concat]

/-- C7 amended-claim witness: undoing with two stacked snapshots pops the
later one and rewinds `localDoc` to it. -/
theorem undo_pops_wholesale_witness :
    let c : ClientState (List Nat) (List Nat) :=
      { actorId := "Alice", localDoc := [1, 2, 3], shadowDoc := [1],
        serverVersion := 1, touchedPaths := ["nodes.nodeA.color"],
        isOnline := true, strictMode := false, undoStack := [[1], [1, 2]] }
    c.undo listEngine = { c with localDoc := [1, 2], undoStack := [[1]] } :=
  undo_pops_wholesale listEngine _ [[1]] [1, 2] rfl

/-- C7 counterexample — the claim as stated is false on the code: at a
concrete state, `undo()` does pop and replace `localDoc` wholesale, but
`touchedPaths` is left exactly as it was (a non-empty set naming only the
previously touched path), neither cleared nor conservatively recomputed. -/
theorem undo_touchedPaths_left_unchanged :
    let c : ClientState (List Nat) (List Nat) :=
      { actorId := "Alice", localDoc := [1, 2], shadowDoc := [1],
        serverVersion := 1, touchedPaths := ["nodes.nodeA.color"],
        isOnline := true, strictMode := false, undoStack := [[1]] }
    (c.undo listEngine).touchedPaths = c.touchedPaths ∧
      c.touchedPaths = ["nodes.nodeA.color"] ∧
      (c.undo listEngine).localDoc = [1] ∧
      (c.undo listEngine).undoStack = [] :=
  ⟨rfl, rfl, rfl, rfl⟩

end CrdtDemo
